import Mathlib

/-!
Verification development for the china-claw backend (feed ranking and
voting subsystem). The definitions below are a shallow embedding of the
JavaScript services and route handlers: pure functions model the SQL
statements and the in-process arithmetic, stateful services become
explicit state passing over a record of stored rows, and fallible
operations return `Except`.
-/

namespace ChinaClaw

/-- A vote direction, as stored in the votes relation. -/
inductive VoteDir where
  | up
  | down
deriving DecidableEq, Repr

/-- Numeric contribution of a stored vote row (absence of a row counts 0). -/
def dirValue : Option VoteDir → Int
  | none => 0
  | some VoteDir.up => 1
  | some VoteDir.down => -1

/-- Modelled from the spec: the VoteLedger transition table of spec §4.1
(`applyVote`). The implementing file `src/services/VoteService.js` is not
among the provided sources; only its callers (the post routes) are.
Given the existing direction of the voter for a target and the requested
direction, returns the resulting stored direction and the score delta
applied to the target. -/
def applyVote : Option VoteDir → VoteDir → Option VoteDir × Int
  | none, VoteDir.up => (some VoteDir.up, 1)
  | none, VoteDir.down => (some VoteDir.down, -1)
  | some VoteDir.up, VoteDir.up => (none, -1)
  | some VoteDir.down, VoteDir.down => (none, 1)
  | some VoteDir.up, VoteDir.down => (some VoteDir.down, -2)
  | some VoteDir.down, VoteDir.up => (some VoteDir.up, 2)

/-- Vote state for a single target: the vote rows (voter id, direction)
and the stored net score of the target. -/
structure VoteLedger where
  votes : List (Nat × VoteDir)
  score : Int
deriving DecidableEq, Repr

/-- A fresh target: no vote rows, score 0. -/
def emptyLedger : VoteLedger := ⟨[], 0⟩

/-- Read the current direction of the voter for the target (none if no row). -/
def lookupVote (votes : List (Nat × VoteDir)) (v : Nat) : Option VoteDir :=
  (votes.find? (fun p => p.1 == v)).map (fun p => p.2)

/-- Delete the row of the voter, if any. -/
def eraseVoter (votes : List (Nat × VoteDir)) (v : Nat) : List (Nat × VoteDir) :=
  votes.filter (fun p => p.1 != v)

/-- Persist the resulting direction: delete the row for `none`,
insert/replace the row for `some d`. -/
def setVote (votes : List (Nat × VoteDir)) (v : Nat) : Option VoteDir → List (Nat × VoteDir)
  | none => eraseVoter votes v
  | some d => (v, d) :: eraseVoter votes v

/-- One vote operation: resolve old direction, apply the transition,
persist the resulting row and add the delta to the score (atomically,
per spec §4.1). -/
def voteStep (st : VoteLedger) (v : Nat) (d : VoteDir) : VoteLedger :=
  let r := applyVote (lookupVote st.votes v) d
  { votes := setVote st.votes v r.1, score := st.score + r.2 }

/-- Run a sequence of vote operations. -/
def runVotes (st : VoteLedger) : List (Nat × VoteDir) → VoteLedger
  | [] => st
  | op :: ops => runVotes (voteStep st op.1 op.2) ops

/-- The sequence of score deltas emitted by a sequence of vote
operations (the expected deltas of the §4.1 table at each step). -/
def deltaTrace (st : VoteLedger) : List (Nat × VoteDir) → List Int
  | [] => []
  | op :: ops => (applyVote (lookupVote st.votes op.1) op.2).2 ::
      deltaTrace (voteStep st op.1 op.2) ops

/-- Sum of the values of all stored vote rows. -/
def tally (votes : List (Nat × VoteDir)) : Int :=
  (votes.map (fun p => dirValue (some p.2))).sum

/-- At most one vote row per voter (spec invariant). -/
def keysNodup (votes : List (Nat × VoteDir)) : Prop :=
  (votes.map Prod.fst).Nodup

/-- A stored post row: identity, author, submolt (normalized id), net
score and creation timestamp (seconds since epoch). -/
structure Post where
  id : Nat
  authorId : Nat
  submoltId : Nat
  score : Int
  createdAt : Int
deriving DecidableEq, Repr

/-- The stored relations the feed queries read: post rows, subscription
rows (agent id, submolt id) and follow rows (follower id, followed id). -/
structure Db where
  posts : List Post
  subscriptions : List (Nat × Nat)
  follows : List (Nat × Nat)
deriving DecidableEq, Repr

/-- Insert `a` before the first element `b` with `le a b`. -/
def insertBy (le : α → α → Bool) (a : α) : List α → List α
  | [] => [a]
  | b :: bs => if le a b then a :: b :: bs else b :: insertBy le a bs

/-- Stable sort modelling an SQL ORDER BY: `le a b` means `a` may be
placed at or before `b` under the requested ordering. -/
def sortBy (le : α → α → Bool) : List α → List α
  | [] => []
  | a :: as => insertBy le a (sortBy le as)

/-- LIMIT/OFFSET: a contiguous window into the ordered list. -/
def paginate (limit offset : Nat) (l : List α) : List α :=
  (l.drop offset).take limit

/-- The global feed comparator for sort mode top:
ORDER BY p.score DESC, p.created_at DESC (PostService.getFeed). -/
def topLeGlobal (a b : Post) : Bool :=
  decide (b.score < a.score ∨ (a.score = b.score ∧ b.createdAt ≤ a.createdAt))

/-- The personalized feed comparator for sort mode top:
ORDER BY p.score DESC, with no tie-break (PostService.getPersonalizedFeed). -/
def topLePersonal (a b : Post) : Bool :=
  decide (b.score ≤ a.score)

/-- The comparator for sort mode new: ORDER BY p.created_at DESC. -/
def newLe (a b : Post) : Bool :=
  decide (b.createdAt ≤ a.createdAt)

/-- Candidate predicate of the personalized feed WHERE clause: an
EXISTS over subscriptions on the submolt of the post OR an EXISTS over
follows on the author of the post, both for the viewer. -/
def personalPred (db : Db) (viewer : Nat) (p : Post) : Bool :=
  db.subscriptions.contains (viewer, p.submoltId) ||
    db.follows.contains (viewer, p.authorId)

/-- PostService.getFeed with an optional submolt filter, ordered by the
given comparator, then paginated. -/
def getFeed (le : Post → Post → Bool) (db : Db) (submoltFilter : Option Nat)
    (limit offset : Nat) : List Post :=
  let candidates := match submoltFilter with
    | none => db.posts
    | some sm => db.posts.filter (fun p => p.submoltId == sm)
  paginate limit offset (sortBy le candidates)

/-- PostService.getPersonalizedFeed: posts whose submolt the viewer
subscribes to or whose author the viewer follows, ordered, paginated. -/
def getPersonalizedFeed (le : Post → Post → Bool) (db : Db) (viewer : Nat)
    (limit offset : Nat) : List Post :=
  paginate limit offset (sortBy le (db.posts.filter (personalPred db viewer)))

/-- The global feed under sort mode top. -/
def getFeedTop (db : Db) (submoltFilter : Option Nat) (limit offset : Nat) : List Post :=
  getFeed topLeGlobal db submoltFilter limit offset

/-- The personalized feed under sort mode top. -/
def getPersonalizedFeedTop (db : Db) (viewer : Nat) (limit offset : Nat) : List Post :=
  getPersonalizedFeed topLePersonal db viewer limit offset

/-- Concrete database for the C5 witness: the viewer (agent 3)
subscribes to submolt 20; post 1 is in submolt 20, post 2 is not and its
author is not followed. -/
def dbW : Db :=
  { posts := [⟨1, 10, 20, 0, 0⟩, ⟨2, 11, 21, 0, 0⟩],
    subscriptions := [(3, 20)],
    follows := [] }

/-- Typed failures of the post service. -/
inductive ApiError where
  | notFound
  | forbidden
deriving DecidableEq, Repr

/-- SELECT the post row with the given id. -/
def findPost (db : Db) (pid : Nat) : Option Post :=
  db.posts.find? (fun p => p.id == pid)

/-- PostService.delete: look up the post; NotFound if absent; Forbidden
unless the requester is the author; otherwise DELETE the row. The
returned pair is the typed outcome and the resulting stored state. -/
def deletePost (db : Db) (postId agentId : Nat) : Except ApiError Unit × Db :=
  match findPost db postId with
  | none => (Except.error ApiError.notFound, db)
  | some p =>
    if p.authorId ≠ agentId then
      (Except.error ApiError.forbidden, db)
    else
      (Except.ok (), { db with posts := db.posts.filter (fun q => q.id != postId) })

/-- The JavaScript expression `x || 0`: 0 for a missing value (null) and
for the falsy number 0, otherwise the value itself. -/
def jsOrZero : Option Int → Int
  | none => 0
  | some v => if v = 0 then 0 else v

/-- PostService.updateScore: UPDATE the score of the matching row by delta
RETURNING the new score; the handler returns the RETURNING value
through `result?.score || 0`, so a missing row yields 0 and no error. -/
def updateScore (db : Db) (postId : Nat) (delta : Int) : Int × Db :=
  match findPost db postId with
  | none => (jsOrZero none, db)
  | some p =>
    let newPosts := db.posts.map fun q =>
      if q.id == postId then { q with score := q.score + delta } else q
    (jsOrZero (some (p.score + delta)), { db with posts := newPosts })

/-- The effective limit computed by the GET /posts and
GET /submolts/:name/feed handlers: Math.min(parseInt(limit, 10), max).
`none` stands for a NaN parse result, which Math.min propagates. -/
def effLimit (maxLimit : Int) : Option Int → Option Int
  | none => none
  | some v => some (min v maxLimit)

/-- The effective offset computed by the handlers:
parseInt(offset, 10) || 0. `none` stands for a NaN parse result; the
falsy values NaN and 0 give 0, every other parsed value passes through. -/
def effOffset : Option Int → Int
  | none => 0
  | some v => if v = 0 then 0 else v

/-- The stored social graph the follow operations touch: the follows
relation and the denormalized per-agent counters. -/
structure SocialState where
  follows : List (Nat × Nat)
  followerCount : Nat → Int
  followingCount : Nat → Int

/-- The denormalized counters of an agent agree with the follows relation:
follower_count counts rows in which the agent is followed,
following_count counts rows in which it is the follower. -/
def consistentOn (agents : List Nat) (s : SocialState) : Prop :=
  ∀ a ∈ agents,
    s.followerCount a = (s.follows.countP (fun r => r.2 == a) : Int) ∧
    s.followingCount a = (s.follows.countP (fun r => r.1 == a) : Int)

instance (agents : List Nat) (s : SocialState) : Decidable (consistentOn agents s) :=
  List.decidableBAll _ agents

/-- AgentService.follow: reject self-follow, no-op when the row already
exists, otherwise insert the row and increment both agent counters
inside a single transaction. Returns the final state together with the
states observable at each commit point. -/
def follow (s : SocialState) (fer fed : Nat) : SocialState × List SocialState :=
  if fer == fed then (s, [])
  else if s.follows.contains (fer, fed) then (s, [])
  else
    let s1 : SocialState :=
      { follows := (fer, fed) :: s.follows,
        followerCount := fun a => if a == fed then s.followerCount a + 1 else s.followerCount a,
        followingCount := fun a => if a == fer then s.followingCount a + 1 else s.followingCount a }
    (s1, [s1])

/-- AgentService.unfollow: DELETE the row in its own statement, then
decrement the two counters in separate statements outside any
transaction; each of the three commit points is observable. -/
def unfollow (s : SocialState) (fer fed : Nat) : SocialState × List SocialState :=
  if s.follows.contains (fer, fed) then
    let s1 : SocialState := { s with follows := s.follows.erase (fer, fed) }
    let s2 : SocialState := { s1 with
      followingCount := fun a => if a == fer then s1.followingCount a - 1 else s1.followingCount a }
    let s3 : SocialState := { s2 with
      followerCount := fun a => if a == fed then s2.followerCount a - 1 else s2.followerCount a }
    (s3, [s1, s2, s3])
  else (s, [])

instance : Inhabited SocialState := ⟨⟨[], fun _ => 0, fun _ => 0⟩⟩

/-- Concrete initial state for the C7 counterexample and witness:
agent 0 follows agent 1 and all counters are consistent. -/
def followState0 : SocialState :=
  { follows := [(0, 1)],
    followerCount := fun a => if a == 1 then 1 else 0,
    followingCount := fun a => if a == 0 then 1 else 0 }

/-- The argument GREATEST(ABS(score), 1) guarding the LOG domain in the
hot ORDER BY clause. -/
def hotLogArg (score : Int) : Int := max |score| 1

/-- The hot sort key computed by the ORDER BY clause of getFeed and
getPersonalizedFeed: LOG(GREATEST(ABS(score), 1)) * SIGN(score) +
EXTRACT(EPOCH FROM created_at) / 45000 (Postgres LOG is base 10);
ordered descending. -/
noncomputable def hotKey (score : Int) (epochSeconds : ℚ) : ℝ :=
  Real.logb 10 ((hotLogArg score : Int) : ℝ) * ((score.sign : Int) : ℝ) +
    (epochSeconds : ℝ) / 45000

/-- The hot key exactly as the spec words it:
sign(score) * log10(max(abs score, 1)) + secondsSinceEpoch / 45000. -/
noncomputable def hotKeySpec (score : Int) (epochSeconds : ℚ) : ℝ :=
  ((score.sign : Int) : ℝ) * Real.logb 10 (((max |score| 1 : Int) : ℝ)) +
    (epochSeconds : ℝ) / 45000

/-- The hot key of a stored post. Under the descending hot order, post
a ranks at or above post b iff hotKeyOfPost b ≤ hotKeyOfPost a. -/
noncomputable def hotKeyOfPost (p : Post) : ℝ :=
  hotKey p.score (p.createdAt : ℚ)

/-- The POWER base of the rising ORDER BY clause:
EXTRACT(EPOCH FROM (NOW() - created_at)) / 3600 + 2. -/
def risingBase (ageSeconds : ℚ) : ℚ := ageSeconds / 3600 + 2

/-- The rising sort key: (score + 1) / POWER(hoursSinceCreated + 2, 1.5),
ordered descending. -/
noncomputable def risingKey (score : Int) (ageSeconds : ℚ) : ℝ :=
  (((score : Int) : ℝ) + 1) / (((risingBase ageSeconds : ℚ) : ℝ) ^ (1.5 : ℝ))

theorem tally_cons (a : Nat × VoteDir) (l : List (Nat × VoteDir)) :
    tally (a :: l) = dirValue (some a.2) + tally l := by
  simp [tally]

theorem applyVote_snd_eq (e : Option VoteDir) (r : VoteDir) :
    (applyVote e r).2 = dirValue (applyVote e r).1 - dirValue e := by
  cases e with
  | none => cases r <;> rfl
  | some d => cases d <;> cases r <;> rfl

theorem eraseVoter_of_not_mem {votes : List (Nat × VoteDir)} {v : Nat}
    (h : v ∉ votes.map Prod.fst) : eraseVoter votes v = votes := by
  apply List.filter_eq_self.mpr
  intro a ha
  have : a.1 ≠ v := fun hv => h (List.mem_map.mpr ⟨a, ha, hv⟩)
  simpa [bne] using this

theorem tally_eraseVoter {votes : List (Nat × VoteDir)} {v : Nat}
    (h : keysNodup votes) :
    tally (eraseVoter votes v) = tally votes - dirValue (lookupVote votes v) := by
  induction votes with
  | nil => simp [tally, eraseVoter, lookupVote, dirValue]
  | cons a rest ih =>
    simp only [keysNodup, List.map_cons, List.nodup_cons] at h
    obtain ⟨hnotmem, hrest⟩ := h
    by_cases hv : a.1 = v
    · have h1 : eraseVoter (a :: rest) v = eraseVoter rest v := by
        simp [eraseVoter, List.filter_cons, hv]
      have h2 : eraseVoter rest v = rest := eraseVoter_of_not_mem (hv ▸ hnotmem)
      have h3 : lookupVote (a :: rest) v = some a.2 := by
        simp [lookupVote, List.find?_cons, hv]
      rw [h1, h2, h3]
      simp only [tally, List.map_cons, List.sum_cons]
      ring
    · have h1 : eraseVoter (a :: rest) v = a :: eraseVoter rest v := by
        simp [eraseVoter, List.filter_cons, hv]
      have h3 : lookupVote (a :: rest) v = lookupVote rest v := by
        simp [lookupVote, List.find?_cons, hv]
      rw [h1, h3, tally_cons, tally_cons, ih hrest]
      ring

theorem keysNodup_eraseVoter {votes : List (Nat × VoteDir)} {v : Nat}
    (h : keysNodup votes) : keysNodup (eraseVoter votes v) :=
  ((List.filter_sublist votes).map Prod.fst).nodup h

theorem not_mem_map_fst_eraseVoter (votes : List (Nat × VoteDir)) (v : Nat) :
    v ∉ (eraseVoter votes v).map Prod.fst := by
  intro hmem
  rcases List.mem_map.mp hmem with ⟨a, ha, hfst⟩
  have := List.of_mem_filter ha
  simp [bne, hfst] at this

theorem keysNodup_setVote {votes : List (Nat × VoteDir)} {v : Nat}
    (r : Option VoteDir) (h : keysNodup votes) : keysNodup (setVote votes v r) := by
  cases r with
  | none => exact keysNodup_eraseVoter h
  | some d =>
    refine List.Nodup.cons ?_ (keysNodup_eraseVoter h)
    exact not_mem_map_fst_eraseVoter votes v

theorem tally_setVote {votes : List (Nat × VoteDir)} {v : Nat}
    (r : Option VoteDir) (h : keysNodup votes) :
    tally (setVote votes v r) =
      tally votes - dirValue (lookupVote votes v) + dirValue r := by
  cases r with
  | none => rw [setVote]; rw [tally_eraseVoter h]; simp [dirValue]
  | some d =>
    show tally ((v, d) :: eraseVoter votes v) = _
    simp only [tally, List.map_cons, List.sum_cons]
    have := tally_eraseVoter (v := v) h
    simp only [tally] at this
    rw [this]
    ring

theorem voteStep_invariant {st : VoteLedger} (v : Nat) (d : VoteDir)
    (hn : keysNodup st.votes) (hs : st.score = tally st.votes) :
    keysNodup (voteStep st v d).votes ∧
      (voteStep st v d).score = tally (voteStep st v d).votes := by
  constructor
  · exact keysNodup_setVote _ hn
  · show st.score + (applyVote (lookupVote st.votes v) d).2 =
      tally (setVote st.votes v (applyVote (lookupVote st.votes v) d).1)
    rw [tally_setVote _ hn, applyVote_snd_eq, hs]
    ring

theorem runVotes_invariant : ∀ (ops : List (Nat × VoteDir)) (st : VoteLedger),
    keysNodup st.votes → st.score = tally st.votes →
    keysNodup (runVotes st ops).votes ∧
      (runVotes st ops).score = tally (runVotes st ops).votes
  | [], st, hn, hs => ⟨hn, hs⟩
  | op :: ops, st, hn, hs => by
    rw [runVotes]
    have h := voteStep_invariant op.1 op.2 hn hs
    exact runVotes_invariant ops _ h.1 h.2

theorem runVotes_score_eq_sum : ∀ (ops : List (Nat × VoteDir)) (st : VoteLedger),
    (runVotes st ops).score = st.score + (deltaTrace st ops).sum
  | [], st => by simp [runVotes, deltaTrace]
  | op :: ops, st => by
    rw [runVotes, deltaTrace, List.sum_cons, runVotes_score_eq_sum ops]
    rw [show (voteStep st op.1 op.2).score =
      st.score + (applyVote (lookupVote st.votes op.1) op.2).2 from rfl]
    ring

/-- C1: the score delta for every (existing, requested) pair equals the
value in the §4.1 transition table, and for any sequence of vote
operations from a fresh target the stored score equals the sum of the
expected per-step deltas (equivalently, the sum of the values of the
surviving vote rows). -/
theorem vote_delta_table_and_score_sum :
    applyVote none VoteDir.up = (some VoteDir.up, 1) ∧
    applyVote none VoteDir.down = (some VoteDir.down, -1) ∧
    applyVote (some VoteDir.up) VoteDir.up = (none, -1) ∧
    applyVote (some VoteDir.down) VoteDir.down = (none, 1) ∧
    applyVote (some VoteDir.up) VoteDir.down = (some VoteDir.down, -2) ∧
    applyVote (some VoteDir.down) VoteDir.up = (some VoteDir.up, 2) ∧
    (∀ ops : List (Nat × VoteDir),
      (runVotes emptyLedger ops).score = (deltaTrace emptyLedger ops).sum) ∧
    (∀ ops : List (Nat × VoteDir),
      (runVotes emptyLedger ops).score = tally (runVotes emptyLedger ops).votes) :=
  ⟨rfl, rfl, rfl, rfl, rfl, rfl,
   fun ops => by simpa [emptyLedger] using runVotes_score_eq_sum ops emptyLedger,
   fun ops => (runVotes_invariant ops emptyLedger (by simp [emptyLedger, keysNodup]) rfl).2⟩

/-- C2: voting the same direction twice is the identity on a fresh
target: up, up ends with score 0 and vote-state none; and the scenario
up, down, down ends with score 0 and no vote row for the voter, with the
intermediate scores 1 and -1. -/
theorem vote_toggle_identity :
    (runVotes emptyLedger [(7, VoteDir.up), (7, VoteDir.up)]).score = 0 ∧
    (runVotes emptyLedger [(7, VoteDir.up), (7, VoteDir.up)]).votes = [] ∧
    lookupVote (runVotes emptyLedger [(7, VoteDir.up), (7, VoteDir.up)]).votes 7 = none ∧
    (runVotes emptyLedger [(7, VoteDir.up)]).score = 1 ∧
    (runVotes emptyLedger [(7, VoteDir.up), (7, VoteDir.down)]).score = -1 ∧
    (runVotes emptyLedger [(7, VoteDir.up), (7, VoteDir.down), (7, VoteDir.down)]).score = 0 ∧
    (runVotes emptyLedger [(7, VoteDir.up), (7, VoteDir.down), (7, VoteDir.down)]).votes = [] := by
  decide

theorem insertBy_perm (le : α → α → Bool) (a : α) :
    ∀ l : List α, List.Perm (insertBy le a l) (a :: l)
  | [] => List.Perm.refl _
  | b :: bs => by
    rw [insertBy]
    by_cases h : le a b = true
    · rw [if_pos h]
    · rw [if_neg h]
      exact ((insertBy_perm le a bs).cons b).trans (List.Perm.swap a b bs)

theorem sortBy_perm (le : α → α → Bool) :
    ∀ l : List α, List.Perm (sortBy le l) l
  | [] => List.Perm.refl _
  | a :: as => (insertBy_perm le a (sortBy le as)).trans ((sortBy_perm le as).cons a)

theorem pairwise_insertBy {le : α → α → Bool}
    (total : ∀ a b, le a b = true ∨ le b a = true)
    (trans : ∀ a b c, le a b = true → le b c = true → le a c = true)
    (a : α) : ∀ {l : List α}, l.Pairwise (fun x y => le x y = true) →
      (insertBy le a l).Pairwise (fun x y => le x y = true)
  | [], _ => by simp [insertBy]
  | b :: bs, h => by
    rw [insertBy]
    by_cases hab : le a b = true
    · rw [if_pos hab]
      refine List.Pairwise.cons ?_ h
      intro x hx
      rcases List.mem_cons.mp hx with rfl | hx
      · exact hab
      · exact trans a b x hab (List.rel_of_pairwise_cons h hx)
    · rw [if_neg hab]
      have hba : le b a = true := (total a b).resolve_left hab
      refine List.Pairwise.cons ?_ (pairwise_insertBy total trans a h.of_cons)
      intro x hx
      rcases List.mem_cons.mp ((insertBy_perm le a bs).mem_iff.mp hx) with rfl | hx
      · exact hba
      · exact List.rel_of_pairwise_cons h hx

theorem pairwise_sortBy {le : α → α → Bool}
    (total : ∀ a b, le a b = true ∨ le b a = true)
    (trans : ∀ a b c, le a b = true → le b c = true → le a c = true) :
    ∀ l : List α, (sortBy le l).Pairwise (fun x y => le x y = true)
  | [] => List.Pairwise.nil
  | a :: as => pairwise_insertBy total trans a (pairwise_sortBy total trans as)

theorem pairwise_paginate {R : α → α → Prop} {l : List α} (limit offset : Nat)
    (h : l.Pairwise R) : (paginate limit offset l).Pairwise R :=
  List.Pairwise.sublist
    (((l.drop offset).take_sublist limit).trans (l.drop_sublist offset)) h

theorem topLeGlobal_total (a b : Post) :
    topLeGlobal a b = true ∨ topLeGlobal b a = true := by
  simp only [topLeGlobal, decide_eq_true_eq]
  omega

theorem topLeGlobal_trans (a b c : Post) :
    topLeGlobal a b = true → topLeGlobal b c = true → topLeGlobal a c = true := by
  simp only [topLeGlobal, decide_eq_true_eq]
  omega

theorem topLePersonal_total (a b : Post) :
    topLePersonal a b = true ∨ topLePersonal b a = true := by
  simp only [topLePersonal, decide_eq_true_eq]
  omega

theorem topLePersonal_trans (a b c : Post) :
    topLePersonal a b = true → topLePersonal b c = true → topLePersonal a c = true := by
  simp only [topLePersonal, decide_eq_true_eq]
  omega

/-- C4 (amended): under top, neither feed ever places a strictly
lower-scored post before a higher-scored one; the global feed
additionally breaks score ties by createdAt descending, but the
personalized feed orders by score alone. -/
theorem top_ordering_of_feeds :
    (∀ (db : Db) (sm : Option Nat) (limit offset : Nat),
      (getFeedTop db sm limit offset).Pairwise
        (fun a b => b.score < a.score ∨ (a.score = b.score ∧ b.createdAt ≤ a.createdAt))) ∧
    (∀ (db : Db) (viewer : Nat) (limit offset : Nat),
      (getPersonalizedFeedTop db viewer limit offset).Pairwise
        (fun a b => b.score ≤ a.score)) := by
  constructor
  · intro db sm limit offset
    refine (pairwise_paginate limit offset
      (pairwise_sortBy topLeGlobal_total topLeGlobal_trans _)).imp ?_
    intro a b h
    simpa only [topLeGlobal, decide_eq_true_eq] using h
  · intro db viewer limit offset
    refine (pairwise_paginate limit offset
      (pairwise_sortBy topLePersonal_total topLePersonal_trans _)).imp ?_
    intro a b h
    simpa only [topLePersonal, decide_eq_true_eq] using h

/-- C4 counterexample: in the personalized feed under top, two posts
with equal score are not ordered by createdAt descending; the older
post (createdAt 100) is returned before the newer one (createdAt 200). -/
theorem top_personal_no_tiebreak_cex :
    getPersonalizedFeedTop
        { posts := [⟨1, 10, 20, 5, 100⟩, ⟨2, 11, 20, 5, 200⟩],
          subscriptions := [(3, 20)], follows := [] } 3 2 0 =
      [⟨1, 10, 20, 5, 100⟩, ⟨2, 11, 20, 5, 200⟩] ∧
    (⟨1, 10, 20, 5, 100⟩ : Post).score = (⟨2, 11, 20, 5, 200⟩ : Post).score ∧
    (⟨1, 10, 20, 5, 100⟩ : Post).createdAt < (⟨2, 11, 20, 5, 200⟩ : Post).createdAt ∧
    ¬ (getPersonalizedFeedTop
        { posts := [⟨1, 10, 20, 5, 100⟩, ⟨2, 11, 20, 5, 200⟩],
          subscriptions := [(3, 20)], follows := [] } 3 2 0).Pairwise
      (fun a b => b.score < a.score ∨ (a.score = b.score ∧ b.createdAt ≤ a.createdAt)) := by
  decide

theorem paginate_sublist (limit offset : Nat) (l : List α) :
    List.Sublist (paginate limit offset l) l :=
  ((l.drop offset).take_sublist limit).trans (l.drop_sublist offset)

theorem personalPred_iff (db : Db) (viewer : Nat) (p : Post) :
    personalPred db viewer p = true ↔
      ((viewer, p.submoltId) ∈ db.subscriptions ∨ (viewer, p.authorId) ∈ db.follows) := by
  simp [personalPred, List.contains, List.elem_iff]

/-- C5: with the page window covering all posts, a post appears in the
personalized feed iff it is stored and its submolt is subscribed-to by
the viewer or its author is followed by the viewer; a qualifying stored
post appears exactly once; and a post qualifying via neither predicate
appears in no page window at all. -/
theorem personalized_feed_inclusion (le : Post → Post → Bool) (db : Db)
    (viewer : Nat) (p : Post) :
    (p ∈ getPersonalizedFeed le db viewer db.posts.length 0 ↔
      p ∈ db.posts ∧
        ((viewer, p.submoltId) ∈ db.subscriptions ∨ (viewer, p.authorId) ∈ db.follows)) ∧
    (db.posts.Nodup → p ∈ db.posts → personalPred db viewer p = true →
      (getPersonalizedFeed le db viewer db.posts.length 0).count p = 1) ∧
    (∀ limit offset : Nat, personalPred db viewer p = false →
      p ∉ getPersonalizedFeed le db viewer limit offset) := by
  have hlen : (sortBy le (db.posts.filter (personalPred db viewer))).length ≤ db.posts.length := by
    rw [(sortBy_perm le _).length_eq]
    exact db.posts.length_filter_le _
  have hfull : getPersonalizedFeed le db viewer db.posts.length 0 =
      sortBy le (db.posts.filter (personalPred db viewer)) := by
    rw [getPersonalizedFeed, paginate, List.drop_zero, List.take_of_length_le hlen]
  refine ⟨?_, ?_, ?_⟩
  · rw [hfull, (sortBy_perm le _).mem_iff, List.mem_filter, personalPred_iff]
  · intro hnd hmem hpred
    rw [hfull, (sortBy_perm le _).count_eq, List.count_filter hpred,
      List.count_eq_one_of_mem hnd hmem]
  · intro limit offset hpred hmem
    have h1 : p ∈ sortBy le (db.posts.filter (personalPred db viewer)) :=
      (paginate_sublist limit offset _).subset hmem
    have h2 : p ∈ db.posts.filter (personalPred db viewer) :=
      (sortBy_perm le _).mem_iff.mp h1
    have := (List.mem_filter.mp h2).2
    rw [hpred] at this
    cases this

theorem personalized_feed_inclusion_witness :
    (⟨1, 10, 20, 0, 0⟩ : Post) ∈ getPersonalizedFeed topLePersonal dbW 3 dbW.posts.length 0 ∧
    (getPersonalizedFeed topLePersonal dbW 3 dbW.posts.length 0).count ⟨1, 10, 20, 0, 0⟩ = 1 ∧
    (⟨2, 11, 21, 0, 0⟩ : Post) ∉ getPersonalizedFeed topLePersonal dbW 3 5 0 :=
  ⟨(personalized_feed_inclusion topLePersonal dbW 3 ⟨1, 10, 20, 0, 0⟩).1.mpr
      ⟨by decide, Or.inl (by decide)⟩,
   (personalized_feed_inclusion topLePersonal dbW 3 ⟨1, 10, 20, 0, 0⟩).2.1
      (by decide) (by decide) (by decide),
   (personalized_feed_inclusion topLePersonal dbW 3 ⟨2, 11, 21, 0, 0⟩).2.2 5 0 (by decide)⟩

/-- C8: delete fails with NotFound when the post is missing, fails with
Forbidden when the requester is not the author, removes exactly the
rows of the post when the requester is the author, and on any failure leaves
the stored state unchanged. -/
theorem delete_post_owner_only (db : Db) (postId agentId : Nat) :
    (findPost db postId = none →
      deletePost db postId agentId = (Except.error ApiError.notFound, db)) ∧
    (∀ p, findPost db postId = some p → p.authorId ≠ agentId →
      deletePost db postId agentId = (Except.error ApiError.forbidden, db)) ∧
    (∀ p, findPost db postId = some p → p.authorId = agentId →
      (deletePost db postId agentId).1 = Except.ok () ∧
      (∀ q, q ∈ (deletePost db postId agentId).2.posts ↔ q ∈ db.posts ∧ q.id ≠ postId)) ∧
    (∀ e, (deletePost db postId agentId).1 = Except.error e →
      (deletePost db postId agentId).2 = db) := by
  refine ⟨?_, ?_, ?_, ?_⟩
  · intro h
    simp [deletePost, h]
  · intro p hp hne
    simp [deletePost, hp, hne]
  · intro p hp heq
    refine ⟨by simp [deletePost, hp, heq], ?_⟩
    intro q
    simp [deletePost, hp, heq, List.mem_filter]
  · intro e he
    cases hf : findPost db postId with
    | none => simp [deletePost, hf]
    | some p =>
      by_cases hne : p.authorId = agentId
      · simp [deletePost, hf, hne] at he
      · simp [deletePost, hf, hne]

theorem delete_post_owner_only_witness :
    deletePost dbW 5 10 = (Except.error ApiError.notFound, dbW) ∧
    deletePost dbW 1 11 = (Except.error ApiError.forbidden, dbW) ∧
    (deletePost dbW 1 10).1 = Except.ok () ∧
    ((⟨1, 10, 20, 0, 0⟩ : Post) ∈ (deletePost dbW 1 10).2.posts ↔
      (⟨1, 10, 20, 0, 0⟩ : Post) ∈ dbW.posts ∧ (1 : Nat) ≠ 1) :=
  ⟨(delete_post_owner_only dbW 5 10).1 (by decide),
   (delete_post_owner_only dbW 1 11).2.1 ⟨1, 10, 20, 0, 0⟩ (by decide) (by decide),
   ((delete_post_owner_only dbW 1 10).2.2.1 ⟨1, 10, 20, 0, 0⟩ (by decide) (by decide)).1,
   ((delete_post_owner_only dbW 1 10).2.2.1 ⟨1, 10, 20, 0, 0⟩ (by decide) (by decide)).2
     ⟨1, 10, 20, 0, 0⟩⟩

/-- C10: updateScore on a missing post id returns 0 and leaves the
stored state unchanged rather than failing with NotFound, and an
existing post whose new score is 0 also returns 0, so the result cannot
distinguish the two. -/
theorem updateScore_missing_post (db : Db) (postId : Nat) (delta : Int) :
    (findPost db postId = none → updateScore db postId delta = (0, db)) ∧
    (∀ p, findPost db postId = some p → p.score + delta = 0 →
      (updateScore db postId delta).1 = 0) := by
  constructor
  · intro h
    rw [updateScore, h]
    rfl
  · intro p hp hz
    rw [updateScore, hp]
    simp [jsOrZero, hz]

theorem updateScore_missing_post_witness :
    updateScore dbW 5 3 = (0, dbW) ∧ (updateScore dbW 1 0).1 = 0 :=
  ⟨(updateScore_missing_post dbW 5 3).1 (by decide),
   (updateScore_missing_post dbW 1 0).2 ⟨1, 10, 20, 0, 0⟩ (by decide) (by decide)⟩

/-- C6 counterexample: a requested limit of 0 is not raised to 1 (the
handlers only cap above), and a requested offset of -5 is neither
rejected nor raised to 0. -/
theorem pagination_no_lower_clamp_cex :
    effLimit 100 (some 0) = some 0 ∧ ¬ (1 : Int) ≤ 0 ∧
    effOffset (some (-5)) = -5 ∧ effOffset (some (-5)) < 0 := by
  decide

/-- C6 (amended): the effective limit is only capped above by the
configured maximum (100) and equals the requested value whenever that
is at most the maximum, with no lower clamp; the effective offset is 0
only when the parse yields NaN or 0, and any other requested value,
negative included, passes through unchanged. -/
theorem pagination_upper_clamp_only (v : Int) :
    (∀ w, effLimit 100 (some v) = some w → w ≤ 100) ∧
    (v ≤ 100 → effLimit 100 (some v) = some v) ∧
    effOffset none = 0 ∧
    effOffset (some v) = v := by
  refine ⟨?_, ?_, rfl, ?_⟩
  · intro w hw
    rw [effLimit] at hw
    cases hw
    exact min_le_right v 100
  · intro hle
    rw [effLimit, min_eq_left hle]
  · rw [effOffset]
    by_cases hz : v = 0
    · rw [if_pos hz, hz]
    · rw [if_neg hz]

theorem pagination_upper_clamp_only_witness :
    ((25 : Int) ≤ 100 ∧ effLimit 100 (some 25) = some 25) ∧
    effOffset (some 7) = 7 :=
  ⟨⟨by decide, (pagination_upper_clamp_only 25).2.1 (by decide)⟩,
   (pagination_upper_clamp_only 7).2.2.2⟩

theorem countP_erase [BEq α] [LawfulBEq α] {l : List α} {x : α} (p : α → Bool)
    (hx : x ∈ l) :
    l.countP p = (l.erase x).countP p + if p x then 1 else 0 := by
  induction l with
  | nil => cases hx
  | cons a as ih =>
    by_cases hax : a = x
    · subst hax
      rw [List.erase_cons_head, List.countP_cons]
    · rw [List.erase_cons_tail (by simpa using hax), List.countP_cons,
        List.countP_cons]
      have hmem : x ∈ as := by
        rcases List.mem_cons.mp hx with h | h
        · exact absurd h.symm hax
        · exact h
      rw [ih hmem]
      omega

theorem follow_consistent {agents : List Nat} {s : SocialState} (fer fed : Nat)
    (h : consistentOn agents s) : consistentOn agents (follow s fer fed).1 := by
  rw [follow]
  by_cases h0 : (fer == fed) = true
  · rw [if_pos h0]; exact h
  · rw [if_neg h0]
    by_cases h1 : s.follows.contains (fer, fed) = true
    · rw [if_pos h1]; exact h
    · rw [if_neg h1]
      intro a ha
      obtain ⟨hfr, hfg⟩ := h a ha
      refine ⟨?_, ?_⟩
      · show (if (a == fed) = true then s.followerCount a + 1 else s.followerCount a) =
          (((fer, fed) :: s.follows).countP (fun r => r.2 == a) : Int)
        rw [List.countP_cons]
        simp only [beq_iff_eq]
        rcases eq_or_ne a fed with rfl | hne
        · simp only [if_pos rfl]
          rw [hfr]
          push_cast
          ring
        · rw [if_neg hne, if_neg (by simpa using hne.symm)]
          simpa using hfr
      · show (if (a == fer) = true then s.followingCount a + 1 else s.followingCount a) =
          (((fer, fed) :: s.follows).countP (fun r => r.1 == a) : Int)
        rw [List.countP_cons]
        simp only [beq_iff_eq]
        rcases eq_or_ne a fer with rfl | hne
        · simp only [if_pos rfl]
          rw [hfg]
          push_cast
          ring
        · rw [if_neg hne, if_neg (by simpa using hne.symm)]
          simpa using hfg

theorem unfollow_consistent {agents : List Nat} {s : SocialState} (fer fed : Nat)
    (h : consistentOn agents s) : consistentOn agents (unfollow s fer fed).1 := by
  rw [unfollow]
  by_cases h1 : s.follows.contains (fer, fed) = true
  · rw [if_pos h1]
    have hmem : (fer, fed) ∈ s.follows := by
      simpa [List.contains, List.elem_iff] using h1
    intro a ha
    obtain ⟨hfr, hfg⟩ := h a ha
    have e1 := countP_erase (l := s.follows) (x := (fer, fed)) (fun r => r.2 == a) hmem
    have e2 := countP_erase (l := s.follows) (x := (fer, fed)) (fun r => r.1 == a) hmem
    refine ⟨?_, ?_⟩
    · show (if (a == fed) = true then s.followerCount a - 1 else s.followerCount a) =
        ((s.follows.erase (fer, fed)).countP (fun r => r.2 == a) : Int)
      simp only [beq_iff_eq] at e1 ⊢
      rcases eq_or_ne a fed with rfl | hne
      · rw [if_pos rfl] at e1 ⊢
        rw [hfr, e1]
        push_cast
        ring
      · rw [if_neg (by simpa using hne.symm)] at e1
        rw [if_neg hne]
        rw [hfr, e1]
        simp
    · show (if (a == fer) = true then s.followingCount a - 1 else s.followingCount a) =
        ((s.follows.erase (fer, fed)).countP (fun r => r.1 == a) : Int)
      simp only [beq_iff_eq] at e2 ⊢
      rcases eq_or_ne a fer with rfl | hne
      · rw [if_pos rfl] at e2 ⊢
        rw [hfg, e2]
        push_cast
        ring
      · rw [if_neg (by simpa using hne.symm)] at e2
        rw [if_neg hne]
        rw [hfg, e2]
        simp
  · rw [if_neg h1]; exact h

/-- C7 (amended): when the counters start consistent with the follows
relation, the state after a completed follow is consistent and so is
every state observable during it (follow runs in one transaction), and
the state after a completed unfollow is consistent; but unfollow
commits its relation delete and its two counter decrements separately,
so consistency of its intermediate states is not guaranteed (see the
counterexample). -/
theorem follow_unfollow_counter_consistency (agents : List Nat) (s : SocialState)
    (fer fed : Nat) (h : consistentOn agents s) :
    consistentOn agents (follow s fer fed).1 ∧
    (∀ t ∈ (follow s fer fed).2, consistentOn agents t) ∧
    consistentOn agents (unfollow s fer fed).1 := by
  have hf := @follow_consistent agents s fer fed h
  refine ⟨hf, ?_, @unfollow_consistent agents s fer fed h⟩
  intro t ht
  have htr : (follow s fer fed).2 = [] ∨ (follow s fer fed).2 = [(follow s fer fed).1] := by
    rw [follow]
    by_cases h0 : (fer == fed) = true
    · left; rw [if_pos h0]
    · rw [if_neg h0]
      by_cases h1 : s.follows.contains (fer, fed) = true
      · left; rw [if_pos h1]
      · right; rw [if_neg h1]
  rcases htr with he | he
  · rw [he] at ht
    cases ht
  · rw [he] at ht
    have := List.mem_singleton.mp ht
    rw [this]
    exact hf

/-- C7 counterexample: during unfollow the first committed state (the
relation row already deleted, counters not yet decremented) is
observable and inconsistent: agent 1 has follower_count 1 but zero
matching follow rows. -/
theorem unfollow_not_atomic_cex :
    (unfollow followState0 0 1).2.length = 3 ∧
    ((unfollow followState0 0 1).2.headI).follows.countP (fun r => r.2 == 1) = 0 ∧
    ((unfollow followState0 0 1).2.headI).followerCount 1 = 1 ∧
    ¬ consistentOn [0, 1] ((unfollow followState0 0 1).2.headI) := by
  decide

theorem follow_unfollow_counter_consistency_witness :
    consistentOn [0, 1] (follow followState0 0 1).1 ∧
    consistentOn [0, 1] (unfollow followState0 0 1).1 :=
  ⟨(follow_unfollow_counter_consistency [0, 1] followState0 0 1 (by decide)).1,
   (follow_unfollow_counter_consistency [0, 1] followState0 0 1 (by decide)).2.2⟩

theorem hotKey_mono (s : Int) {t1 t2 : ℚ} (h : t2 ≤ t1) :
    hotKey s t2 ≤ hotKey s t1 := by
  rw [hotKey, hotKey]
  have hc : (t2 : ℝ) ≤ (t1 : ℝ) := by exact_mod_cast h
  have hd : (t2 : ℝ) / 45000 ≤ (t1 : ℝ) / 45000 := by linarith
  linarith

/-- C3: the hot sort key of the code equals the spec formula
sign(score) * log10(max(abs score, 1)) + secondsSinceEpoch / 45000; the
key is monotone in the creation time for a fixed score, so of two
targets with equal score the more recently created one ranks at or
above the older one under the descending hot order. -/
theorem hot_key_formula_and_decay :
    (∀ (s : Int) (t : ℚ), hotKey s t = hotKeySpec s t) ∧
    (∀ (s : Int) (t1 t2 : ℚ), t2 ≤ t1 → hotKey s t2 ≤ hotKey s t1) ∧
    (∀ a b : Post, a.score = b.score → b.createdAt ≤ a.createdAt →
      hotKeyOfPost b ≤ hotKeyOfPost a) := by
  refine ⟨?_, ?_, ?_⟩
  · intro s t
    rw [hotKey, hotKeySpec, hotLogArg]
    ring
  · intro s t1 t2 h
    exact hotKey_mono s h
  · intro a b hsc hct
    rw [hotKeyOfPost, hotKeyOfPost, hsc]
    exact hotKey_mono b.score (by exact_mod_cast hct)

theorem hot_key_formula_and_decay_witness :
    (45000 : ℚ) ≤ 90000 ∧
    hotKey 2 45000 ≤ hotKey 2 90000 ∧
    hotKeyOfPost ⟨1, 0, 0, 5, 100⟩ ≤ hotKeyOfPost ⟨2, 0, 0, 5, 200⟩ :=
  ⟨by decide,
   hot_key_formula_and_decay.2.1 2 90000 45000 (by decide),
   hot_key_formula_and_decay.2.2 ⟨2, 0, 0, 5, 200⟩ ⟨1, 0, 0, 5, 100⟩ rfl (by decide)⟩

/-- C9: the ranking keys are total with guarded domains: the hot LOG
argument is at least 1 for every integer score (in particular exactly 1
at score 0, where the key degenerates to pure time decay), the rising
POWER base is strictly positive for every nonnegative age and so is the
power itself, and the top and new comparators compare every pair of
posts. -/
theorem ranking_keys_total (s : Int) (t age : ℚ) (h : 0 ≤ age) :
    1 ≤ hotLogArg s ∧
    hotLogArg 0 = 1 ∧
    0 < risingBase age ∧
    (0 : ℝ) < ((risingBase age : ℚ) : ℝ) ^ (1.5 : ℝ) ∧
    hotKey 0 t = (t : ℝ) / 45000 ∧
    (∀ a b : Post, topLeGlobal a b = true ∨ topLeGlobal b a = true) ∧
    (∀ a b : Post, newLe a b = true ∨ newLe b a = true) := by
  have hb : 0 < risingBase age := by
    rw [risingBase]
    have h36 : (0 : ℚ) ≤ age / 3600 := by positivity
    linarith
  refine ⟨le_max_right _ _, by decide, hb, ?_, ?_, topLeGlobal_total, ?_⟩
  · exact Real.rpow_pos_of_pos (by exact_mod_cast hb) _
  · rw [hotKey]
    simp [Int.sign_zero]
  · intro a b
    simp only [newLe, decide_eq_true_eq]
    omega

theorem ranking_keys_total_witness :
    (0 : ℚ) ≤ 0 ∧ 1 ≤ hotLogArg (-3) ∧ 0 < risingBase 0 :=
  ⟨le_rfl,
   (ranking_keys_total (-3) 7 0 le_rfl).1,
   (ranking_keys_total (-3) 7 0 le_rfl).2.2.1⟩

end ChinaClaw
